import Mathlib

/-!
Verification development for the MindStorm radial mind-map application.

The embedding models the tree store kept in `App.tsx` (a JavaScript
`Record<string, NodeData>` held in React state), the expansion controller
(`handleStartBrainstorm`, `handleExpandNode`, `handleReset`), the layout
function (`calculateTreeLayout` in `utils/layout.ts`), the idea-generation
wrapper (`generateSubIdeas` in `services/geminiService.ts`) and the
click gate of `components/MindMapNode.tsx`.

JavaScript objects are partial records: spreading `undefined` (as the code
does with `{...prev[nodeId], ...}` when `nodeId` is absent) produces an
object whose remaining fields are undefined.  Node fields are therefore
modelled as `Option`s; a field value `none` is JavaScript `undefined`.
`parentId` is `Option (Option String)`: `some none` is JavaScript `null`
(the root marker), `none` is undefined.
-/

namespace MindStorm

/-- The node record of `types.ts`.  All fields are `Option`s because at
runtime the store can hold partial objects (spread of `undefined`), even
though `types.ts` declares every field present. -/
structure NodeData where
  id : Option String := none
  text : Option String := none
  parentId : Option (Option String) := none
  depth : Option Nat := none
  isExpanded : Option Bool := none
  isLoading : Option Bool := none
  childrenIds : Option (List String) := none
deriving DecidableEq

/-- The tree store: the `Record<string, NodeData>` of `App.tsx`, modelled
as an insertion-ordered association list with (in reachable states)
pairwise distinct keys, matching JavaScript object key order. -/
abbrev Store := List (String × NodeData)

/-- Property lookup `nodes[key]`. -/
def lookup : Store → String → Option NodeData
  | [], _ => none
  | (k, v) :: rest, key => if k = key then some v else lookup rest key

/-- The writes `{...prev, [key]: v}` and `obj[key] = v`: update the key in place when
present (JavaScript keeps the original key position), append otherwise. -/
def setEntry : Store → String → NodeData → Store
  | [], k, v => [(k, v)]
  | (k', v') :: rest, k, v =>
      if k' = k then (k, v) :: rest else (k', v') :: setEntry rest k v

/-- Reading `prev[key]` in spread position: a missing key behaves as the empty
object (`{...undefined}` is `{}`). -/
def jsGet (s : Store) (k : String) : NodeData :=
  (lookup s k).getD {}

/-- The keys of the store. -/
def keys (s : Store) : List String := s.map (·.1)

/-! ## Constants (`constants` module, re-exported through `geminiService.ts`) -/

def MAX_DEPTH : Nat := 5

def RADIUS_STEP : Nat := 220

/-! ## Expansion controller (`App.tsx`) -/

/-- JavaScript truthiness of a possibly-undefined boolean field. -/
def jsTruthy (b : Option Bool) : Bool := b.getD false

/-- Synchronous part of `handleExpandNode` (App.tsx): the guard
`if (!node || node.isLoading || node.childrenIds.length > 0) return;`
followed by `setNodes(prev => ({...prev, [nodeId]: {...prev[nodeId],
isLoading: true}}))`.  Returns `none` when the guard rejects the call
(silent no-op), otherwise the store with the node marked loading.
A record whose `childrenIds` is undefined is treated as having length 0;
the UI never invokes the handler on such a record. -/
def handleExpandStart (s : Store) (nid : String) : Option Store :=
  match lookup s nid with
  | none => none
  | some node =>
      if jsTruthy node.isLoading then none
      else if 0 < (node.childrenIds.getD []).length then none
      else some (setEntry s nid { jsGet s nid with isLoading := some true })

/-- The child record built for each generated idea inside the success
continuation of `handleExpandNode`: `{id: childId, text: idea, parentId:
nodeId, depth: node.depth + 1, isExpanded: false, isLoading: false,
childrenIds: []}`.  `snap` is the `node` binding captured when the handler
was invoked (its `depth` read before the awaited call); an undefined
snapshot depth (`NaN` after `+ 1` in JavaScript) stays undefined. -/
def childNodeOf (nid : String) (snap : NodeData) (ci : String × String) : NodeData :=
  { id := some ci.1, text := some ci.2, parentId := some (some nid),
    depth := snap.depth.map (· + 1), isExpanded := some false,
    isLoading := some false, childrenIds := some [] }

/-- The record a commit continuation writes for the expanded node:
`{...prev[nodeId], isExpanded: true, isLoading: false}` with
`childrenIds` assigned afterwards (`newNodes[nodeId].childrenIds =
childIds`).  When `prev[nodeId]` is gone (reset raced the response) the
spread of `undefined` leaves every other field undefined. -/
def commitParentRecord (prev : Store) (nid : String) (cids : List String) : NodeData :=
  { jsGet prev nid with
      isExpanded := some true, isLoading := some false, childrenIds := some cids }

/-- Success continuation of `handleExpandNode` (App.tsx):
`updatedParent = {...prev[nodeId], isExpanded: true, isLoading: false}`,
one fresh-id child per idea appended to the record, and
`newNodes[nodeId].childrenIds = childIds`.  `cids` are the `uuidv4()`
values drawn for the children, pairwise distinct and absent from the
store. -/
def expandCommitUpdater (nid : String) (snap : NodeData) (ideas : List String)
    (cids : List String) (prev : Store) : Store :=
  let withParent := setEntry prev nid (commitParentRecord prev nid cids)
  (cids.zip ideas).foldl (fun acc ci => setEntry acc ci.1 (childNodeOf nid snap ci)) withParent

/-- Failure continuation shared by the `catch` blocks of
`handleExpandNode` and `handleStartBrainstorm`:
`setNodes(prev => ({...prev, [nodeId]: {...prev[nodeId], isLoading: false}}))`. -/
def expandFailUpdater (nid : String) (prev : Store) : Store :=
  setEntry prev nid { jsGet prev nid with isLoading := some false }

/-- The root record created synchronously by `handleStartBrainstorm`. -/
def newRootNode (r q : String) : NodeData :=
  { id := some r, text := some q, parentId := some none, depth := some 0,
    isExpanded := some false, isLoading := some true, childrenIds := some [] }

/-- The child record built inside the success continuation of
`handleStartBrainstorm` (depth is the literal 1, parent the new root id). -/
def rootChildNodeOf (r : String) (ci : String × String) : NodeData :=
  { id := some ci.1, text := some ci.2, parentId := some (some r),
    depth := some 1, isExpanded := some false, isLoading := some false,
    childrenIds := some [] }

/-- Success continuation of `handleStartBrainstorm` (App.tsx): marks the
root expanded and not loading, appends one depth-1 child per idea, and
assigns `childrenIds`. -/
def rootCommitUpdater (r : String) (ideas : List String) (cids : List String)
    (prev : Store) : Store :=
  let withRoot := setEntry prev r (commitParentRecord prev r cids)
  (cids.zip ideas).foldl (fun acc ci => setEntry acc ci.1 (rootChildNodeOf r ci)) withRoot

/-! ## Idea-generation wrapper (`services/geminiService.ts`) -/

/-- Outcome of the awaited `ai.models.generateContent` call: either the
promise rejects (or some other exception is raised before the response
text is read), or it resolves with a response whose `text` may be
undefined. -/
inductive ApiOutcome where
  | failure
  | success (text : Option String)
deriving DecidableEq

/-- Outcome of `JSON.parse(response.text)`: either it throws, or it
yields an object whose `ideas` field may be absent. -/
inductive ParseOutcome where
  | failure
  | parsed (ideas : Option (List String))
deriving DecidableEq

/-- The hard-coded fallback of the `catch` block in `generateSubIdeas`. -/
def errorFallbackIdeas : List String := ["Error generating", "Try again"]

/-- The wrapper `generateSubIdeas` (geminiService.ts) with the external service call
and JSON parsing abstracted as outcome parameters.  The `try` block
returns `[]` when `response.text` is falsy (undefined or the empty
string), otherwise `parsed.ideas || []`; every exception is caught and
mapped to `errorFallbackIdeas`, so the wrapper always resolves. -/
def generateSubIdeas (api : ApiOutcome) (parse : String → ParseOutcome) : List String :=
  match api with
  | .failure => errorFallbackIdeas
  | .success none => []
  | .success (some t) =>
      if t = "" then []
      else
        match parse t with
        | .failure => errorFallbackIdeas
        | .parsed ideas => ideas.getD []

/-! ## Layout engine (`utils/layout.ts`)

`calculateTreeLayout` feeds `Object.values(nodes)` to `d3.stratify()`
keyed by the `id` and `parentId` fields, runs `d3.tree()` on the result,
and converts each hierarchy node's (angle, depth) to Cartesian
coordinates.  `d3` is third-party library code, not part of this
repository, so its stratify validity check and angular assignment are
modelled from the spec (§4.2); the traversal set, the edge list, the
radius rule and the polar-to-Cartesian formula are the repository's own
logic and are taken from the source. -/

/-- The ordered child list of node `p`: the store entries whose
`parentId` field is the string `p`, in store order (the order
`d3.stratify` attaches children). -/
def childrenIdsOf (s : Store) (p : String) : List String :=
  (s.filter (fun kv => kv.2.parentId = some (some p))).map (·.1)

/-- Pre-order traversal of the tree rooted at `i`, following
`parentId` links; `fuel` bounds recursion depth (the store size is
always enough fuel for a valid tree). -/
def subtreeIds (s : Store) : Nat → String → List String
  | 0, _ => []
  | fuel + 1, i => i :: (childrenIdsOf s i).flatMap (subtreeIds s fuel)

/-- Pre-order traversal paired with the hierarchy depth `d3` computes
(`d.depth`: the distance from the stratify root). -/
def subtreeDepths (s : Store) : Nat → String → Nat → List (String × Nat)
  | 0, _, _ => []
  | fuel + 1, i, d =>
      (i, d) :: (childrenIdsOf s i).flatMap (fun c => subtreeDepths s fuel c (d + 1))

/-- Modelled from the spec: the `d3.stratify` success condition (library
code not under `src/`) — the flat mapping forms a valid single tree
rooted at `rootId`: keys are distinct, every record's `id` field names
its key, `rootId` is present with a `null` parent, every other record's
parent is present in the mapping, and every key is reached by the
pre-order traversal from `rootId`. -/
def validTree (s : Store) (rootId : String) : Bool :=
  decide ((keys s).Nodup)
  && (match lookup s rootId with
      | some r => decide (r.parentId = some none)
      | none => false)
  && s.all (fun kv => decide (kv.2.id = some kv.1))
  && s.all (fun kv => decide (kv.1 = rootId) ||
       (match kv.2.parentId with
        | some (some p) => (lookup s p).isSome
        | _ => false))
  && decide (List.Perm (subtreeIds s s.length rootId) (keys s))

/-- The ids of the positioned-node list returned by the layout: empty
when `rootId` is falsy (`calculateTreeLayout(nodes, rootId || '')` with a
cleared root) or absent, or when stratify fails; otherwise the pre-order
traversal from `rootId`. -/
def layoutIds (s : Store) (rootId : String) : List String :=
  if rootId = "" then []
  else if validTree s rootId then subtreeIds s s.length rootId
  else []

/-- The edge list (`root.links()`): one `(parent, child)` pair per
parent-child relationship of the stratified hierarchy. -/
def layoutLinks (s : Store) (rootId : String) : List (String × String) :=
  if rootId = "" then []
  else if validTree s rootId then
    (subtreeIds s s.length rootId).flatMap
      (fun i => (childrenIdsOf s i).map (fun c => (i, c)))
  else []

/-- One step of the parent-child relation recorded in the store:
`c`'s record exists and its `parentId` field is `p`. -/
def childRel (s : Store) (p c : String) : Prop :=
  ∃ v, lookup s c = some v ∧ v.parentId = some (some p)

/-- Node `i` is reachable from `r` along `parentId` links. -/
def Reaches (s : Store) (r i : String) : Prop :=
  Relation.ReflTransGen (childRel s) r i

/-- Modelled from the spec: the angular position `d3.tree` assigns
(library code not under `src/`) — leaves get equal slices of the full
circle in traversal order and an internal node sits at the midpoint of
its subtree's wedge; the root is pinned to angle 0.  Expressed as a
fraction of a full turn. -/
def angleTurns (s : Store) (rootId i : String) : ℚ :=
  if i = rootId then 0
  else
    let leaves := (subtreeIds s s.length rootId).filter
      (fun j => childrenIdsOf s j = [])
    let mine := (subtreeIds s s.length i).filter
      (fun j => childrenIdsOf s j = [])
    match mine.head?, mine.getLast? with
    | some a, some b =>
        ((leaves.indexOf a : ℚ) + (leaves.indexOf b : ℚ) + 1) / (2 * leaves.length)
    | _, _ => 0

/-- The angle in radians. -/
noncomputable def assignedAngle (s : Store) (rootId i : String) : ℝ :=
  2 * Real.pi * (angleTurns s rootId i : ℝ)

/-- A positioned node of the layout output: its id, its hierarchy depth
(`d.depth`) and its Cartesian coordinates. -/
structure PositionedNode where
  id : String
  depth : Nat
  x : ℝ
  y : ℝ

/-- The layout output: positioned nodes plus the edge list as
(source id, target id) pairs. -/
structure LayoutResult where
  nodes : List PositionedNode
  links : List (String × String)

/-- The positioned record built for one hierarchy node:
`radius = d.depth * RADIUS_STEP`, `x = radius * cos(angle - π/2)`,
`y = radius * sin(angle - π/2)` (the source's polar-to-Cartesian step). -/
noncomputable def positionedNode (s : Store) (rootId : String) (pd : String × Nat) :
    PositionedNode :=
  { id := pd.1, depth := pd.2,
    x := ((pd.2 : ℝ) * (RADIUS_STEP : ℝ)) *
           Real.cos (assignedAngle s rootId pd.1 - Real.pi / 2),
    y := ((pd.2 : ℝ) * (RADIUS_STEP : ℝ)) *
           Real.sin (assignedAngle s rootId pd.1 - Real.pi / 2) }

/-- The layout function `calculateTreeLayout` (utils/layout.ts): guard on a falsy or absent
root, stratify (empty layout on failure), then position every hierarchy
node and collect the parent-child links. -/
noncomputable def calculateTreeLayout (s : Store) (rootId : String) : LayoutResult :=
  if rootId = "" then ⟨[], []⟩
  else if validTree s rootId then
    { nodes := (subtreeDepths s s.length rootId 0).map (positionedNode s rootId),
      links := layoutLinks s rootId }
  else ⟨[], []⟩

/-! ## The user-interface state machine

`App.tsx` runs on the single-threaded browser event loop: every store
mutation is synchronous and the only suspension points are the awaited
collaborator calls.  Each in-flight call is a pending request; resolving
or failing it runs the corresponding continuation against the store as
it is at that moment.  React flushes discrete events, so a click handler
observes the store produced by the previous synchronous mutation. -/

/-- Click gate of `MindMapNode.tsx` (`handleClick`): refuse when the node
is loading, at or beyond `MAX_DEPTH` (`data.depth >= MAX_DEPTH`, false
when `depth` is undefined, as for `NaN`), or already has children. -/
def handleClickAllowed (node : NodeData) : Bool :=
  !(jsTruthy node.isLoading)
  && !(match node.depth with
       | some d => decide (MAX_DEPTH ≤ d)
       | none => false)
  && decide ((node.childrenIds.getD []).length = 0)

/-- The guard `!inputQuery.trim()` of `handleStartBrainstorm`: the call
proceeds exactly when the query contains a non-whitespace character
(i.e. its trim is nonempty). -/
def queryNonBlank (q : String) : Bool :=
  q.data.any (fun c => !c.isWhitespace)

/-- One in-flight collaborator call. -/
inductive PendingReq where
  /-- The awaited `generateSubIdeas` of `handleStartBrainstorm`,
  remembering the new root id its continuation closes over. -/
  | rootGen (r : String)
  /-- The awaited `generateSubIdeas` of `handleExpandNode`, remembering
  the node id and the `node` binding captured at call time. -/
  | expand (nid : String) (snap : NodeData)
deriving DecidableEq

/-- The node id a pending request targets. -/
def PendingReq.reqId : PendingReq → String
  | .rootGen r => r
  | .expand nid _ => nid

/-- The application state: the store, the root id, the `isGenerating`
flag that disables the input while the first generation runs, and the
in-flight collaborator calls. -/
structure AppState where
  nodes : Store
  rootId : Option String
  isGenerating : Bool
  pending : List PendingReq
deriving DecidableEq

/-- Ids a fresh `uuidv4()` must avoid: present keys and the targets of
in-flight requests (uuid collisions are assumed impossible). -/
def usedIds (st : AppState) : List String :=
  keys st.nodes ++ st.pending.map PendingReq.reqId

/-- The initial state: empty store, no root, nothing in flight. -/
def initState : AppState :=
  { nodes := [], rootId := none, isGenerating := false, pending := [] }

/-- The rendered node ids: what the layout produces for the current
store, hence the only nodes a user can click. -/
def renderedIds (st : AppState) : List String :=
  layoutIds st.nodes (st.rootId.getD "")

/-- The user-visible transitions. -/
inductive Action where
  | startQuery (q r : String)
  | resolveRoot (r : String) (ideas cids : List String)
  | failRoot (r : String)
  | clickExpand (nid : String)
  | resolveExpand (nid : String) (ideas cids : List String)
  | failExpand (nid : String)
  | reset
deriving DecidableEq

/-- The labelled transition relation of the application. -/
inductive Step : AppState → Action → AppState → Prop
  /-- Entry of `handleStartBrainstorm` up to its suspension point: guard on a
  non-blank query, input enabled only while no root exists and nothing
  is generating; synchronously replaces the store with the fresh root
  (loading) and issues the collaborator call. -/
  | startQuery (st : AppState) (q r : String)
      (hq : queryNonBlank q = true)
      (hroot : st.rootId = none)
      (hgen : st.isGenerating = false)
      (hfresh : r ∉ usedIds st) :
      Step st (.startQuery q r)
        { nodes := [(r, newRootNode r q)], rootId := some r,
          isGenerating := true, pending := st.pending ++ [.rootGen r] }
  /-- The root generation resolves: its success continuation commits the
  ideas with fresh child uuids. -/
  | resolveRoot (st : AppState) (r : String) (ideas cids : List String)
      (pre post : List PendingReq)
      (hp : st.pending = pre ++ .rootGen r :: post)
      (hlen : cids.length = ideas.length)
      (hnd : cids.Nodup)
      (hfresh : ∀ c ∈ cids, c ∉ usedIds st) :
      Step st (.resolveRoot r ideas cids)
        { st with nodes := rootCommitUpdater r ideas cids st.nodes,
                  isGenerating := false, pending := pre ++ post }
  /-- The root generation rejects: the `catch` block clears the loading
  flag. -/
  | failRoot (st : AppState) (r : String) (pre post : List PendingReq)
      (hp : st.pending = pre ++ .rootGen r :: post) :
      Step st (.failRoot r)
        { st with nodes := expandFailUpdater r st.nodes,
                  isGenerating := false, pending := pre ++ post }
  /-- A click on a rendered node that passes both the `MindMapNode` gate
  and the `handleExpandNode` guard: the store marks the node loading and
  the collaborator call is issued with the captured `node` binding. -/
  | clickExpand (st : AppState) (nid : String) (node : NodeData) (ns : Store)
      (hrender : nid ∈ renderedIds st)
      (hlook : lookup st.nodes nid = some node)
      (hclick : handleClickAllowed node = true)
      (hstart : handleExpandStart st.nodes nid = some ns) :
      Step st (.clickExpand nid)
        { st with nodes := ns, pending := st.pending ++ [.expand nid node] }
  /-- An in-flight expansion resolves: its success continuation commits
  against the store as it is now. -/
  | resolveExpand (st : AppState) (nid : String) (snap : NodeData)
      (ideas cids : List String) (pre post : List PendingReq)
      (hp : st.pending = pre ++ .expand nid snap :: post)
      (hlen : cids.length = ideas.length)
      (hnd : cids.Nodup)
      (hfresh : ∀ c ∈ cids, c ∉ usedIds st) :
      Step st (.resolveExpand nid ideas cids)
        { st with nodes := expandCommitUpdater nid snap ideas cids st.nodes,
                  pending := pre ++ post }
  /-- An in-flight expansion rejects: the `catch` block clears the
  loading flag against the store as it is now. -/
  | failExpand (st : AppState) (nid : String) (snap : NodeData)
      (pre post : List PendingReq)
      (hp : st.pending = pre ++ .expand nid snap :: post) :
      Step st (.failExpand nid)
        { st with nodes := expandFailUpdater nid st.nodes, pending := pre ++ post }
  /-- The reset handler `handleReset` (button shown only when a root exists): discard all
  nodes and clear the root id.  In-flight calls are not cancelled. -/
  | reset (st : AppState) (hroot : st.rootId ≠ none) :
      Step st .reset { st with nodes := [], rootId := none }

/-- States reachable through the user interface. -/
inductive Reachable : AppState → Prop
  | init : Reachable initState
  | step {s s' : AppState} {a : Action} :
      Reachable s → Step s a s' → Reachable s'

/-! ## Machine invariants -/

/-- In-flight requests target pairwise distinct node ids, and every
targeted record is either gone from the store or marked loading.  This
is the shape behind the one-outstanding-request-per-node guarantee. -/
def pendingOk (st : AppState) : Prop :=
  (st.pending.map PendingReq.reqId).Nodup
  ∧ ∀ req ∈ st.pending,
      lookup st.nodes req.reqId = none
      ∨ ∃ n, lookup st.nodes req.reqId = some n ∧ n.isLoading = some true

/-- Every stored record with a defined depth is at depth at most
`MAX_DEPTH`, and every captured expansion snapshot with a defined depth
is strictly below `MAX_DEPTH` (it passed the click gate). -/
def depthBounded (st : AppState) : Prop :=
  (∀ kv ∈ st.nodes, ∀ d, kv.2.depth = some d → d ≤ MAX_DEPTH)
  ∧ ∀ nid snap, PendingReq.expand nid snap ∈ st.pending →
      ∀ d, snap.depth = some d → d < MAX_DEPTH

/-! ## Concrete scenario inputs used by witnesses -/

/-- A depth-0 node in the expandable state. -/
def demoExpandableNode : NodeData :=
  { id := some "a", text := some "seed", parentId := some none, depth := some 0,
    isExpanded := some false, isLoading := some false, childrenIds := some [] }

def demoExpandableStore : Store := [("a", demoExpandableNode)]

/-- The same node while its expansion is in flight. -/
def demoLoadingNode : NodeData :=
  { demoExpandableNode with isLoading := some true }

def demoLoadingStore : Store := [("a", demoLoadingNode)]

/-- The depth-1 child node of the demo run, as captured by the click
handler (this is the `node` binding a stale continuation still holds
after a reset removes the record). -/
def demoSnapNode : NodeData :=
  { id := some "node-1", text := some "B", parentId := some (some "root-1"),
    depth := some 1, isExpanded := some false, isLoading := some false,
    childrenIds := some [] }

/-- A three-node tree (root with two children) for layout witnesses. -/
def demoTreeStore : Store :=
  [("r", { id := some "r", text := some "seed", parentId := some none, depth := some 0,
           isExpanded := some true, isLoading := some false,
           childrenIds := some ["c1", "c2"] }),
   ("c1", { id := some "c1", text := some "A", parentId := some (some "r"), depth := some 1,
            isExpanded := some false, isLoading := some false, childrenIds := some [] }),
   ("c2", { id := some "c2", text := some "B", parentId := some (some "r"), depth := some 1,
            isExpanded := some false, isLoading := some false, childrenIds := some [] })]

/-! A concrete run of the machine: seed query, one generated child,
click on the child, reset while the child's expansion is in flight,
then the stale response arrives. -/

/-- After `handleStartBrainstorm` suspends. -/
def demoS1 : AppState :=
  { nodes := [("root-1", newRootNode "root-1" "seed")], rootId := some "root-1",
    isGenerating := true, pending := [.rootGen "root-1"] }

/-- After the root generation resolves with one idea. -/
def demoS2 : AppState :=
  { demoS1 with nodes := rootCommitUpdater "root-1" ["B"] ["node-1"] demoS1.nodes,
                isGenerating := false, pending := ([] : List PendingReq) }

/-- After clicking the child: it is loading and its expansion is in
flight with the captured snapshot. -/
def demoS3 : AppState :=
  { demoS2 with
      nodes := setEntry demoS2.nodes "node-1" { demoSnapNode with isLoading := some true },
      pending := [PendingReq.expand "node-1" demoSnapNode] }

/-- After the user resets: empty store, no root, the call still in
flight. -/
def demoS4 : AppState := { demoS3 with nodes := [], rootId := none }

/-- After the stale response arrives and its continuation commits
against the empty store. -/
def demoS5 : AppState :=
  { demoS4 with
      nodes := expandCommitUpdater "node-1" demoSnapNode ["X"] ["ghost-1"] demoS4.nodes,
      pending := ([] : List PendingReq) }

/-! ## Store lemmas -/

theorem lookup_setEntry_self (s : Store) (k : String) (v : NodeData) :
    lookup (setEntry s k v) k = some v := by
  induction s with
  | nil => simp [setEntry, lookup]
  | cons hd tl ih =>
      by_cases h : hd.1 = k
      · simp [setEntry, h, lookup]
      · simp [setEntry, h, lookup, ih]

theorem lookup_setEntry_ne (s : Store) {k k' : String} (v : NodeData) (h : k' ≠ k) :
    lookup (setEntry s k v) k' = lookup s k' := by
  induction s with
  | nil => simp [setEntry, lookup, Ne.symm h]
  | cons hd tl ih =>
      by_cases hk : hd.1 = k
      · subst hk
        simp [setEntry, lookup, Ne.symm h]
      · by_cases hk' : hd.1 = k'
        · simp [setEntry, hk, lookup, hk', h]
        · simp [setEntry, hk, lookup, hk', ih]

theorem setEntry_eq_of_lookup {s : Store} {k : String} {v : NodeData}
    (h : lookup s k = some v) : setEntry s k v = s := by
  induction s with
  | nil => simp [lookup] at h
  | cons hd tl ih =>
      by_cases hk : hd.1 = k
      · cases hd with
        | mk k₀ v₀ =>
            simp only at hk
            subst hk
            simp [lookup] at h
            simp [setEntry, h]
      · simp [lookup, hk] at h
        simp [setEntry, hk, ih h]

theorem setEntry_setEntry (s : Store) (k : String) (v w : NodeData) :
    setEntry (setEntry s k v) k w = setEntry s k w := by
  induction s with
  | nil => simp [setEntry]
  | cons hd tl ih =>
      by_cases hk : hd.1 = k
      · simp [setEntry, hk]
      · simp [setEntry, hk, ih]

theorem lookup_mem {s : Store} {k : String} {v : NodeData}
    (h : lookup s k = some v) : (k, v) ∈ s := by
  induction s with
  | nil => simp [lookup] at h
  | cons hd tl ih =>
      by_cases hk : hd.1 = k
      · cases hd with
        | mk k₀ v₀ =>
            simp only at hk
            subst hk
            simp [lookup] at h
            simp [h]
      · simp [lookup, hk] at h
        exact List.mem_cons_of_mem _ (ih h)

theorem lookup_eq_of_mem_nodup {s : Store} {k : String} {v : NodeData}
    (h : (k, v) ∈ s) (hnd : (keys s).Nodup) : lookup s k = some v := by
  induction s with
  | nil => simp at h
  | cons hd tl ih =>
      simp only [keys, List.map_cons, List.nodup_cons] at hnd
      rcases List.mem_cons.mp h with h | h
      · subst h
        simp [lookup]
      · have hk : hd.1 ≠ k := by
          intro hEq
          exact hnd.1 (hEq ▸ (List.mem_map.mpr ⟨(k, v), h, rfl⟩))
        simp [lookup, hk]
        exact ih h hnd.2

theorem mem_keys_of_lookup {s : Store} {k : String} {v : NodeData}
    (h : lookup s k = some v) : k ∈ keys s :=
  List.mem_map.mpr ⟨(k, v), lookup_mem h, rfl⟩

theorem lookup_eq_none_of_not_mem_keys {s : Store} {k : String}
    (h : k ∉ keys s) : lookup s k = none := by
  induction s with
  | nil => simp [lookup]
  | cons hd tl ih =>
      simp only [keys, List.map_cons, List.mem_cons, not_or] at h
      simp [lookup, Ne.symm h.1, ih h.2]

theorem mem_setEntry {s : Store} {k : String} {v : NodeData} {kv : String × NodeData}
    (h : kv ∈ setEntry s k v) : kv = (k, v) ∨ kv ∈ s := by
  induction s with
  | nil => simpa [setEntry] using h
  | cons hd tl ih =>
      by_cases hk : hd.1 = k
      · simp only [setEntry, hk, if_pos rfl] at h
        rcases List.mem_cons.mp h with h | h
        · exact Or.inl h
        · exact Or.inr (List.mem_cons_of_mem _ h)
      · simp only [setEntry, if_neg hk] at h
        rcases List.mem_cons.mp h with h | h
        · exact Or.inr (h ▸ List.mem_cons_self _ _)
        · rcases ih h with h | h
          · exact Or.inl h
          · exact Or.inr (List.mem_cons_of_mem _ h)

/-- Setting a list of fresh children: keys outside the written set are
untouched. -/
theorem lookup_foldl_setEntry_not_mem (f : String × String → NodeData)
    (l : List (String × String)) (s : Store) {k : String}
    (h : k ∉ l.map (·.1)) :
    lookup (l.foldl (fun acc ci => setEntry acc ci.1 (f ci)) s) k = lookup s k := by
  induction l generalizing s with
  | nil => simp
  | cons hd tl ih =>
      simp only [List.map_cons, List.mem_cons, not_or] at h
      simp only [List.foldl_cons]
      rw [ih _ h.2, lookup_setEntry_ne _ _ h.1]

/-- Setting a list of children with distinct keys: each written key maps
to its record. -/
theorem lookup_foldl_setEntry_mem (f : String × String → NodeData)
    (l : List (String × String)) (s : Store) {p : String × String}
    (hnd : (l.map (·.1)).Nodup) (hp : p ∈ l) :
    lookup (l.foldl (fun acc ci => setEntry acc ci.1 (f ci)) s) p.1 = some (f p) := by
  induction l generalizing s with
  | nil => simp at hp
  | cons hd tl ih =>
      simp only [List.map_cons, List.nodup_cons] at hnd
      rcases List.mem_cons.mp hp with hp | hp
      · subst hp
        simp only [List.foldl_cons]
        rw [lookup_foldl_setEntry_not_mem _ _ _ hnd.1, lookup_setEntry_self]
      · simp only [List.foldl_cons]
        exact ih _ hnd.2 hp

/-- Every record in the store after writing the children either is one
of the written records or was already present. -/
theorem mem_foldl_setEntry (f : String × String → NodeData)
    (l : List (String × String)) (s : Store) {kv : String × NodeData}
    (h : kv ∈ l.foldl (fun acc ci => setEntry acc ci.1 (f ci)) s) :
    (∃ p ∈ l, kv = (p.1, f p)) ∨ kv ∈ s := by
  induction l generalizing s with
  | nil => exact Or.inr (by simpa using h)
  | cons hd tl ih =>
      simp only [List.foldl_cons] at h
      rcases ih _ h with ⟨p, hpl, hkv⟩ | h
      · exact Or.inl ⟨p, List.mem_cons_of_mem _ hpl, hkv⟩
      · rcases mem_setEntry h with h | h
        · exact Or.inl ⟨hd, List.mem_cons_self _ _, h⟩
        · exact Or.inr h

theorem keys_setEntry_of_mem {s : Store} {k : String} (v : NodeData)
    (h : k ∈ keys s) : keys (setEntry s k v) = keys s := by
  induction s with
  | nil => simp [keys] at h
  | cons hd tl ih =>
      by_cases hk : hd.1 = k
      · simp [setEntry, hk, keys]
      · simp only [keys, List.map_cons, List.mem_cons] at h
        rcases h with h | h
        · exact absurd h.symm hk
        · simp only [setEntry, if_neg hk, keys, List.map_cons]
          rw [show List.map (·.1) (setEntry tl k v) = keys (setEntry tl k v) from rfl,
            ih h]
          rfl

theorem keys_setEntry_of_not_mem {s : Store} {k : String} (v : NodeData)
    (h : k ∉ keys s) : keys (setEntry s k v) = keys s ++ [k] := by
  induction s with
  | nil => simp [setEntry, keys]
  | cons hd tl ih =>
      simp only [keys, List.map_cons, List.mem_cons, not_or] at h
      simp only [setEntry, if_neg (Ne.symm h.1), keys, List.map_cons, List.cons_append]
      rw [show List.map (·.1) (setEntry tl k v) = keys (setEntry tl k v) from rfl, ih h.2]
      rfl

theorem keys_foldl_setEntry (f : String × String → NodeData)
    (l : List (String × String)) (s : Store)
    (hnd : (l.map (·.1)).Nodup) (hfresh : ∀ p ∈ l, p.1 ∉ keys s) :
    keys (l.foldl (fun acc ci => setEntry acc ci.1 (f ci)) s) = keys s ++ l.map (·.1) := by
  induction l generalizing s with
  | nil => simp
  | cons hd tl ih =>
      simp only [List.map_cons, List.nodup_cons] at hnd
      simp only [List.foldl_cons]
      rw [ih _ hnd.2]
      · rw [keys_setEntry_of_not_mem _ (hfresh hd (List.mem_cons_self _ _))]
        simp
      · intro p hp
        rw [keys_setEntry_of_not_mem _ (hfresh hd (List.mem_cons_self _ _))]
        intro hmem
        rcases List.mem_append.mp hmem with hmem | hmem
        · exact hfresh p (List.mem_cons_of_mem _ hp) hmem
        · simp only [List.mem_singleton] at hmem
          exact hnd.1 (hmem ▸ List.mem_map.mpr ⟨p, hp, rfl⟩)

/-! ## Layout lemmas -/

theorem validTree_nodup {s : Store} {rootId : String}
    (hv : validTree s rootId = true) : (keys s).Nodup := by
  simp only [validTree, Bool.and_eq_true, decide_eq_true_eq] at hv
  exact hv.1.1.1.1

theorem validTree_perm {s : Store} {rootId : String}
    (hv : validTree s rootId = true) :
    List.Perm (subtreeIds s s.length rootId) (keys s) := by
  simp only [validTree, Bool.and_eq_true, decide_eq_true_eq] at hv
  exact hv.2

theorem validTree_root {s : Store} {rootId : String}
    (hv : validTree s rootId = true) :
    ∃ r, lookup s rootId = some r ∧ r.parentId = some none := by
  simp only [validTree, Bool.and_eq_true, decide_eq_true_eq] at hv
  have h := hv.1.1.1.2
  cases hl : lookup s rootId with
  | none => rw [hl] at h; exact absurd h (by simp)
  | some r =>
      rw [hl] at h
      simp only [decide_eq_true_eq] at h
      exact ⟨r, rfl, h⟩

theorem mem_childrenIdsOf {s : Store} {p c : String} :
    c ∈ childrenIdsOf s p ↔ ∃ v, (c, v) ∈ s ∧ v.parentId = some (some p) := by
  simp only [childrenIdsOf, List.mem_map, List.mem_filter, decide_eq_true_eq]
  constructor
  · rintro ⟨⟨k, v⟩, ⟨hmem, hpar⟩, rfl⟩
    exact ⟨v, hmem, hpar⟩
  · rintro ⟨v, hmem, hpar⟩
    exact ⟨(c, v), ⟨hmem, hpar⟩, rfl⟩

theorem childRel_of_mem_childrenIdsOf {s : Store} {p c : String}
    (hnd : (keys s).Nodup) (hc : c ∈ childrenIdsOf s p) : childRel s p c := by
  rcases mem_childrenIdsOf.mp hc with ⟨v, hmem, hpar⟩
  exact ⟨v, lookup_eq_of_mem_nodup hmem hnd, hpar⟩

theorem mem_childrenIdsOf_of_childRel {s : Store} {p c : String}
    (h : childRel s p c) : c ∈ childrenIdsOf s p := by
  rcases h with ⟨v, hlook, hpar⟩
  exact mem_childrenIdsOf.mpr ⟨v, lookup_mem hlook, hpar⟩

theorem nodup_childrenIdsOf {s : Store} {p : String}
    (hnd : (keys s).Nodup) : (childrenIdsOf s p).Nodup := by
  have h : (childrenIdsOf s p).Sublist (keys s) := by
    simp only [childrenIdsOf, keys]
    exact List.Sublist.map _ (List.filter_sublist s)
  exact List.Nodup.sublist h hnd

theorem reaches_of_mem_subtreeIds {s : Store} (hnd : (keys s).Nodup) :
    ∀ (fuel : Nat) (i j : String), j ∈ subtreeIds s fuel i → Reaches s i j := by
  intro fuel
  induction fuel with
  | zero => intro i j h; simp [subtreeIds] at h
  | succ fuel ih =>
      intro i j h
      simp only [subtreeIds, List.mem_cons, List.mem_flatMap] at h
      rcases h with rfl | ⟨c, hc, hj⟩
      · exact Relation.ReflTransGen.refl
      · exact Relation.ReflTransGen.trans
          (Relation.ReflTransGen.single (childRel_of_mem_childrenIdsOf hnd hc))
          (ih c j hj)

theorem mem_keys_of_reaches {s : Store} {rootId i : String}
    (hroot : rootId ∈ keys s) (h : Reaches s rootId i) : i ∈ keys s := by
  induction h with
  | refl => exact hroot
  | tail _ h2 _ =>
      rcases h2 with ⟨v, hlook, _⟩
      exact mem_keys_of_lookup hlook

theorem map_fst_subtreeDepths (s : Store) :
    ∀ (fuel : Nat) (i : String) (d : Nat),
      (subtreeDepths s fuel i d).map (·.1) = subtreeIds s fuel i := by
  intro fuel
  induction fuel with
  | zero => intro i d; rfl
  | succ fuel ih =>
      intro i d
      simp only [subtreeDepths, subtreeIds, List.map_cons, List.map_flatMap, ih]

/-- Under validity every occurrence of the root id in the depth-annotated
traversal is the head entry, at hierarchy depth 0. -/
theorem subtreeDepths_root_depth {s : Store} {rootId : String}
    (hv : validTree s rootId = true) :
    ∀ pd ∈ subtreeDepths s s.length rootId 0, pd.1 = rootId → pd.2 = 0 := by
  rcases validTree_root hv with ⟨r, hlook, _⟩
  have hne : s.length ≠ 0 := by
    intro h0
    rw [List.length_eq_zero.mp h0] at hlook
    exact Option.noConfusion hlook
  rcases Nat.exists_eq_succ_of_ne_zero hne with ⟨fuel, hfuel⟩
  have hsub : (subtreeIds s s.length rootId).Nodup :=
    (validTree_perm hv).nodup_iff.mpr (validTree_nodup hv)
  intro pd hpd hid
  rw [hfuel] at hpd hsub
  simp only [subtreeDepths, List.mem_cons] at hpd
  rcases hpd with rfl | hpd
  · rfl
  · exfalso
    simp only [subtreeIds, List.nodup_cons] at hsub
    apply hsub.1
    have : pd.1 ∈ ((childrenIdsOf s rootId).flatMap
        (fun c => subtreeDepths s fuel c 1)).map (·.1) :=
      List.mem_map.mpr ⟨pd, hpd, rfl⟩
    rw [List.map_flatMap] at this
    simp only [List.mem_flatMap] at this
    rcases this with ⟨c, hc, hmem⟩
    rw [map_fst_subtreeDepths] at hmem
    rw [hid] at hmem
    exact List.mem_flatMap.mpr ⟨c, hc, hmem⟩

/-! ## Machine lemmas -/

theorem handleExpandStart_eq_some {s : Store} {nid : String} {ns : Store}
    (h : handleExpandStart s nid = some ns) :
    ∃ node, lookup s nid = some node ∧ jsTruthy node.isLoading = false ∧
      (node.childrenIds.getD []).length = 0 ∧
      ns = setEntry s nid { node with isLoading := some true } := by
  unfold handleExpandStart at h
  cases hl : lookup s nid with
  | none => rw [hl] at h; exact Option.noConfusion h
  | some node =>
      rw [hl] at h
      by_cases h1 : jsTruthy node.isLoading
      · simp [h1] at h
      · by_cases h2 : 0 < (node.childrenIds.getD []).length
        · simp [h1, h2] at h
        · refine ⟨node, rfl, by simpa using h1, by omega, ?_⟩
          have h3 : some (setEntry s nid { jsGet s nid with isLoading := some true }) =
              some ns := by
            simpa [h1, h2] using h
          have h4 := Option.some_injective _ h3
          rw [← h4]
          simp [jsGet, hl]

theorem handleClickAllowed_depth {node : NodeData}
    (h : handleClickAllowed node = true) : ∀ d, node.depth = some d → d < MAX_DEPTH := by
  intro d hd
  simp only [handleClickAllowed, Bool.and_eq_true, Bool.not_eq_true'] at h
  have h2 := h.1.2
  rw [hd] at h2
  simp only [decide_eq_false_iff_not, not_le] at h2
  exact h2

theorem lookup_expandFailUpdater_other {nid k : String} {prev : Store}
    (hk : k ≠ nid) :
    lookup (expandFailUpdater nid prev) k = lookup prev k := by
  simp only [expandFailUpdater]
  exact lookup_setEntry_ne _ _ hk

theorem lookup_expandCommitUpdater_other {nid : String} {snap : NodeData}
    {ideas cids : List String} {prev : Store} {k : String}
    (hk : k ≠ nid) (hc : k ∉ cids) :
    lookup (expandCommitUpdater nid snap ideas cids prev) k = lookup prev k := by
  simp only [expandCommitUpdater]
  rw [lookup_foldl_setEntry_not_mem, lookup_setEntry_ne _ _ hk]
  intro hmem
  rcases List.mem_map.mp hmem with ⟨p, hp, rfl⟩
  exact hc (List.of_mem_zip hp).1

theorem lookup_rootCommitUpdater_other {r : String}
    {ideas cids : List String} {prev : Store} {k : String}
    (hk : k ≠ r) (hc : k ∉ cids) :
    lookup (rootCommitUpdater r ideas cids prev) k = lookup prev k := by
  simp only [rootCommitUpdater]
  rw [lookup_foldl_setEntry_not_mem, lookup_setEntry_ne _ _ hk]
  intro hmem
  rcases List.mem_map.mp hmem with ⟨p, hp, rfl⟩
  exact hc (List.of_mem_zip hp).1

theorem mem_expandCommitUpdater {nid : String} {snap : NodeData}
    {ideas cids : List String} {prev : Store} {kv : String × NodeData}
    (h : kv ∈ expandCommitUpdater nid snap ideas cids prev) :
    (∃ p ∈ cids.zip ideas, kv = (p.1, childNodeOf nid snap p))
  ∨ kv = (nid, commitParentRecord prev nid cids)
  ∨ kv ∈ prev := by
  simp only [expandCommitUpdater] at h
  rcases mem_foldl_setEntry _ _ _ h with h | h
  · exact Or.inl h
  · rcases mem_setEntry h with h | h
    · exact Or.inr (Or.inl h)
    · exact Or.inr (Or.inr h)

theorem mem_rootCommitUpdater {r : String}
    {ideas cids : List String} {prev : Store} {kv : String × NodeData}
    (h : kv ∈ rootCommitUpdater r ideas cids prev) :
    (∃ p ∈ cids.zip ideas, kv = (p.1, rootChildNodeOf r p))
  ∨ kv = (r, commitParentRecord prev r cids)
  ∨ kv ∈ prev := by
  simp only [rootCommitUpdater] at h
  rcases mem_foldl_setEntry _ _ _ h with h | h
  · exact Or.inl h
  · rcases mem_setEntry h with h | h
    · exact Or.inr (Or.inl h)
    · exact Or.inr (Or.inr h)

theorem jsGet_depth_bound {prev : Store}
    (hb : ∀ kv ∈ prev, ∀ d, kv.2.depth = some d → d ≤ MAX_DEPTH) (k : String) :
    ∀ d, (jsGet prev k).depth = some d → d ≤ MAX_DEPTH := by
  intro d hd
  unfold jsGet at hd
  cases hl : lookup prev k with
  | none => rw [hl] at hd; exact Option.noConfusion hd
  | some v =>
      rw [hl] at hd
      exact hb (k, v) (lookup_mem hl) d hd

theorem nodup_map_reqId_middle {pending pre post : List PendingReq} {x : PendingReq}
    (hnd : (pending.map PendingReq.reqId).Nodup) (hp : pending = pre ++ x :: post) :
    x.reqId ∉ (pre ++ post).map PendingReq.reqId
  ∧ ((pre ++ post).map PendingReq.reqId).Nodup := by
  subst hp
  rw [List.map_append, List.map_cons] at hnd
  have h := List.nodup_middle.mp hnd
  rw [List.nodup_cons] at h
  rw [List.map_append]
  exact h

theorem mem_append_middle {α : Type} {pre post : List α} {x y : α}
    (h : y ∈ pre ++ post) : y ∈ pre ++ x :: post := by
  rcases List.mem_append.mp h with h | h
  · exact List.mem_append_left _ h
  · exact List.mem_append_right _ (List.mem_cons_of_mem _ h)

/-- Every transition preserves `pendingOk`. -/
theorem pendingOk_step {s s' : AppState} {a : Action}
    (h : pendingOk s) (hs : Step s a s') : pendingOk s' := by
  cases hs with
  | startQuery q r hq hroot hgen hfresh =>
      constructor
      · rw [List.map_append]
        refine List.Nodup.append h.1 (List.nodup_singleton _) ?_
        intro x hx hy
        simp only [List.map_cons, List.map_nil, List.mem_singleton] at hy
        subst hy
        exact hfresh (List.mem_append_right _ hx)
      · intro req hreq
        rcases List.mem_append.mp hreq with hreq | hreq
        · left
          have hne : req.reqId ≠ r := by
            intro hEq
            exact hfresh (hEq ▸ List.mem_append_right _
              (List.mem_map.mpr ⟨req, hreq, rfl⟩))
          simp [lookup, Ne.symm hne]
        · simp only [List.mem_singleton] at hreq
          subst hreq
          right
          exact ⟨newRootNode r q, by simp [lookup, PendingReq.reqId], rfl⟩
  | resolveRoot r ideas cids pre post hp hlen hnd hfresh =>
      obtain ⟨hnotin, hnd2⟩ := nodup_map_reqId_middle h.1 hp
      refine ⟨hnd2, ?_⟩
      intro req hreq
      have hmem : req ∈ s.pending := by rw [hp]; exact mem_append_middle hreq
      have hne : req.reqId ≠ r := by
        intro hEq
        exact hnotin (hEq ▸ List.mem_map.mpr ⟨req, hreq, rfl⟩)
      have hnc : req.reqId ∉ cids := by
        intro hc
        exact hfresh _ hc (List.mem_append_right _ (List.mem_map.mpr ⟨req, hmem, rfl⟩))
      rw [lookup_rootCommitUpdater_other hne hnc]
      exact h.2 req hmem
  | failRoot r pre post hp =>
      obtain ⟨hnotin, hnd2⟩ := nodup_map_reqId_middle h.1 hp
      refine ⟨hnd2, ?_⟩
      intro req hreq
      have hmem : req ∈ s.pending := by rw [hp]; exact mem_append_middle hreq
      have hne : req.reqId ≠ r := by
        intro hEq
        exact hnotin (hEq ▸ List.mem_map.mpr ⟨req, hreq, rfl⟩)
      rw [lookup_expandFailUpdater_other hne]
      exact h.2 req hmem
  | clickExpand nid node ns hrender hlook hclick hstart =>
      obtain ⟨node2, hlook2, hnl, hcl, hns⟩ := handleExpandStart_eq_some hstart
      have hnodeeq : node2 = node := Option.some_injective _ (hlook2.symm.trans hlook)
      subst hnodeeq
      subst hns
      have hnone : ∀ req ∈ s.pending, req.reqId ≠ nid := by
        intro req hreq hEq
        rcases h.2 req hreq with hn | ⟨n, hn, hl⟩
        · rw [hEq, hlook] at hn
          exact Option.noConfusion hn
        · rw [hEq, hlook] at hn
          have h5 : node2 = n := Option.some_injective _ hn
          rw [h5, hl] at hnl
          simp [jsTruthy] at hnl
      constructor
      · rw [List.map_append]
        refine List.Nodup.append h.1 (List.nodup_singleton _) ?_
        intro x hx hy
        simp only [List.map_cons, List.map_nil, List.mem_singleton] at hy
        rcases List.mem_map.mp hx with ⟨req, hreq, rfl⟩
        exact hnone req hreq (hy.trans rfl)
      · intro req hreq
        rcases List.mem_append.mp hreq with hreq | hreq
        · rw [lookup_setEntry_ne _ _ (hnone req hreq)]
          exact h.2 req hreq
        · simp only [List.mem_singleton] at hreq
          subst hreq
          right
          exact ⟨{ node2 with isLoading := some true }, lookup_setEntry_self _ _ _, rfl⟩
  | resolveExpand nid snap ideas cids pre post hp hlen hnd hfresh =>
      obtain ⟨hnotin, hnd2⟩ := nodup_map_reqId_middle h.1 hp
      refine ⟨hnd2, ?_⟩
      intro req hreq
      have hmem : req ∈ s.pending := by rw [hp]; exact mem_append_middle hreq
      have hne : req.reqId ≠ nid := by
        intro hEq
        exact hnotin (hEq ▸ List.mem_map.mpr ⟨req, hreq, rfl⟩)
      have hnc : req.reqId ∉ cids := by
        intro hc
        exact hfresh _ hc (List.mem_append_right _ (List.mem_map.mpr ⟨req, hmem, rfl⟩))
      rw [lookup_expandCommitUpdater_other hne hnc]
      exact h.2 req hmem
  | failExpand nid snap pre post hp =>
      obtain ⟨hnotin, hnd2⟩ := nodup_map_reqId_middle h.1 hp
      refine ⟨hnd2, ?_⟩
      intro req hreq
      have hmem : req ∈ s.pending := by rw [hp]; exact mem_append_middle hreq
      have hne : req.reqId ≠ nid := by
        intro hEq
        exact hnotin (hEq ▸ List.mem_map.mpr ⟨req, hreq, rfl⟩)
      rw [lookup_expandFailUpdater_other hne]
      exact h.2 req hmem
  | reset hroot =>
      refine ⟨h.1, ?_⟩
      intro req hreq
      left
      rfl

/-- Every reachable state satisfies `pendingOk`. -/
theorem pendingOk_reachable {st : AppState} (h : Reachable st) : pendingOk st := by
  induction h with
  | init =>
      refine ⟨List.nodup_nil, ?_⟩
      intro req hreq
      simp [initState] at hreq
  | step hr hs ih => exact pendingOk_step ih hs

/-- Every transition preserves `depthBounded`. -/
theorem depthBounded_step {s s' : AppState} {a : Action}
    (h : depthBounded s) (hs : Step s a s') : depthBounded s' := by
  cases hs with
  | startQuery q r hq hroot hgen hfresh =>
      constructor
      · intro kv hkv d hd
        simp only [List.mem_singleton] at hkv
        subst hkv
        simp only [newRootNode] at hd
        have : d = 0 := by
          have := Option.some_injective _ hd
          omega
        omega
      · intro nid snap hmem d hd
        rcases List.mem_append.mp hmem with hmem | hmem
        · exact h.2 nid snap hmem d hd
        · simp at hmem
  | resolveRoot r ideas cids pre post hp hlen hnd hfresh =>
      constructor
      · intro kv hkv d hd
        rcases mem_rootCommitUpdater hkv with ⟨p, hb, rfl⟩ | rfl | hkv
        · simp only [rootChildNodeOf] at hd
          have : d = 1 := by
            have := Option.some_injective _ hd
            omega
          simp [MAX_DEPTH]
          omega
        · exact jsGet_depth_bound h.1 r d hd
        · exact h.1 kv hkv d hd
      · intro nid snap hmem d hd
        have hmem2 : PendingReq.expand nid snap ∈ s.pending := by
          rw [hp]; exact mem_append_middle hmem
        exact h.2 nid snap hmem2 d hd
  | failRoot r pre post hp =>
      constructor
      · intro kv hkv d hd
        simp only [expandFailUpdater] at hkv
        rcases mem_setEntry hkv with rfl | hkv
        · exact jsGet_depth_bound h.1 r d hd
        · exact h.1 kv hkv d hd
      · intro nid snap hmem d hd
        have hmem2 : PendingReq.expand nid snap ∈ s.pending := by
          rw [hp]; exact mem_append_middle hmem
        exact h.2 nid snap hmem2 d hd
  | clickExpand nid node ns hrender hlook hclick hstart =>
      obtain ⟨node2, hlook2, hnl, hcl, hns⟩ := handleExpandStart_eq_some hstart
      have hnodeeq : node2 = node := Option.some_injective _ (hlook2.symm.trans hlook)
      subst hnodeeq
      subst hns
      constructor
      · intro kv hkv d hd
        rcases mem_setEntry hkv with rfl | hkv
        · exact h.1 (nid, node2) (lookup_mem hlook) d hd
        · exact h.1 kv hkv d hd
      · intro nid2 snap hmem d hd
        rcases List.mem_append.mp hmem with hmem | hmem
        · exact h.2 nid2 snap hmem d hd
        · simp only [List.mem_singleton, PendingReq.expand.injEq] at hmem
          rw [hmem.2] at hd
          exact handleClickAllowed_depth hclick d hd
  | resolveExpand nid snap ideas cids pre post hp hlen hnd hfresh =>
      have hsnap : ∀ d, snap.depth = some d → d < MAX_DEPTH := by
        intro d hd
        exact h.2 nid snap
          (by rw [hp]; exact List.mem_append_right _ (List.mem_cons_self _ _)) d hd
      constructor
      · intro kv hkv d hd
        rcases mem_expandCommitUpdater hkv with ⟨p, hb, rfl⟩ | rfl | hkv
        · simp only [childNodeOf] at hd
          cases hsd : snap.depth with
          | none => rw [hsd] at hd; exact Option.noConfusion hd
          | some d0 =>
              rw [hsd] at hd
              have h6 : d0 + 1 = d := by simpa using hd
              have hlt := hsnap d0 hsd
              omega
        · exact jsGet_depth_bound h.1 nid d hd
        · exact h.1 kv hkv d hd
      · intro nid2 snap2 hmem d hd
        have hmem2 : PendingReq.expand nid2 snap2 ∈ s.pending := by
          rw [hp]; exact mem_append_middle hmem
        exact h.2 nid2 snap2 hmem2 d hd
  | failExpand nid snap pre post hp =>
      constructor
      · intro kv hkv d hd
        simp only [expandFailUpdater] at hkv
        rcases mem_setEntry hkv with rfl | hkv
        · exact jsGet_depth_bound h.1 nid d hd
        · exact h.1 kv hkv d hd
      · intro nid2 snap2 hmem d hd
        have hmem2 : PendingReq.expand nid2 snap2 ∈ s.pending := by
          rw [hp]; exact mem_append_middle hmem
        exact h.2 nid2 snap2 hmem2 d hd
  | reset hroot =>
      constructor
      · intro kv hkv d hd
        simp at hkv
      · intro nid snap hmem d hd
        exact h.2 nid snap hmem d hd

/-- Every reachable state satisfies `depthBounded`. -/
theorem depthBounded_reachable {st : AppState} (h : Reachable st) : depthBounded st := by
  induction h with
  | init =>
      constructor
      · intro kv hkv d hd
        simp [initState] at hkv
      · intro nid snap hmem d hd
        simp [initState] at hmem
  | step hr hs ih => exact depthBounded_step ih hs

/-- When a node exists and is not loading, no in-flight request targets
it. -/
theorem no_pending_target {st : AppState} {nid : String} {node : NodeData}
    (hok : pendingOk st) (hlook : lookup st.nodes nid = some node)
    (hnl : jsTruthy node.isLoading = false) :
    ∀ req ∈ st.pending, req.reqId ≠ nid := by
  intro req hreq hEq
  rcases hok.2 req hreq with hn | ⟨n, hn, hl⟩
  · rw [hEq, hlook] at hn
    exact Option.noConfusion hn
  · rw [hEq, hlook] at hn
    have h5 : node = n := Option.some_injective _ hn
    rw [h5, hl] at hnl
    simp [jsTruthy] at hnl

/-! The demo trace, step by step. -/

theorem step_init_demoS1 : Step initState (.startQuery "seed" "root-1") demoS1 :=
  Step.startQuery initState "seed" "root-1" (by decide) rfl rfl (by decide)

theorem reach_demoS1 : Reachable demoS1 :=
  Reachable.step Reachable.init step_init_demoS1

theorem step_demoS1_demoS2 : Step demoS1 (.resolveRoot "root-1" ["B"] ["node-1"]) demoS2 :=
  Step.resolveRoot demoS1 "root-1" ["B"] ["node-1"] [] [] rfl rfl (by decide) (by decide)

theorem reach_demoS2 : Reachable demoS2 :=
  Reachable.step reach_demoS1 step_demoS1_demoS2

theorem step_demoS2_demoS3 : Step demoS2 (.clickExpand "node-1") demoS3 :=
  Step.clickExpand demoS2 "node-1" demoSnapNode
    (setEntry demoS2.nodes "node-1" { demoSnapNode with isLoading := some true })
    (by decide) (by decide) (by decide) (by decide)

theorem reach_demoS3 : Reachable demoS3 :=
  Reachable.step reach_demoS2 step_demoS2_demoS3

theorem step_demoS3_demoS4 : Step demoS3 .reset demoS4 :=
  Step.reset demoS3 (by decide)

theorem reach_demoS4 : Reachable demoS4 :=
  Reachable.step reach_demoS3 step_demoS3_demoS4

theorem step_demoS4_demoS5 :
    Step demoS4 (.resolveExpand "node-1" ["X"] ["ghost-1"]) demoS5 :=
  Step.resolveExpand demoS4 "node-1" demoSnapNode ["X"] ["ghost-1"] [] []
    rfl rfl (by decide) (by decide)

theorem reach_demoS5 : Reachable demoS5 :=
  Reachable.step reach_demoS4 step_demoS4_demoS5

/-! ## Claim theorems -/

/-- C9: the idea-generation wrapper `generateSubIdeas` never rejects:
whatever the service call and the parse do, it resolves with a list —
with `["Error generating", "Try again"]` when the call or the parse
fails, with `[]` when the response carries no text, and with the parsed
ideas (defaulting to `[]` when the `ideas` field is absent) otherwise. -/
theorem generateSubIdeas_never_rejects (api : ApiOutcome) (parse : String → ParseOutcome) :
    (api = ApiOutcome.failure → generateSubIdeas api parse = errorFallbackIdeas)
  ∧ (∀ t, api = ApiOutcome.success (some t) → t ≠ "" → parse t = ParseOutcome.failure →
      generateSubIdeas api parse = errorFallbackIdeas)
  ∧ ((api = ApiOutcome.success none ∨ api = ApiOutcome.success (some "")) →
      generateSubIdeas api parse = [])
  ∧ (generateSubIdeas api parse = errorFallbackIdeas
      ∨ generateSubIdeas api parse = []
      ∨ ∃ ideas t, api = ApiOutcome.success (some t) ∧
          parse t = ParseOutcome.parsed ideas ∧
          generateSubIdeas api parse = ideas.getD []) := by
  refine ⟨?_, ?_, ?_, ?_⟩
  · rintro rfl
    rfl
  · rintro t rfl ht hp
    simp [generateSubIdeas, ht, hp]
  · rintro (rfl | rfl) <;> simp [generateSubIdeas]
  · cases api with
    | failure => exact Or.inl rfl
    | success t =>
        cases t with
        | none => exact Or.inr (Or.inl rfl)
        | some t =>
            by_cases ht : t = ""
            · subst ht
              exact Or.inr (Or.inl (by simp [generateSubIdeas]))
            · cases hp : parse t with
              | failure => exact Or.inl (by simp [generateSubIdeas, ht, hp])
              | parsed ideas =>
                  exact Or.inr (Or.inr ⟨ideas, t, rfl, hp, by simp [generateSubIdeas, ht, hp]⟩)

/-- Witness for C9: a rejected service call resolves with the fallback
pair. -/
theorem generateSubIdeas_never_rejects_witness :
    generateSubIdeas ApiOutcome.failure (fun _ => ParseOutcome.failure) = errorFallbackIdeas :=
  (generateSubIdeas_never_rejects ApiOutcome.failure (fun _ => ParseOutcome.failure)).1 rfl

/-- C6: `expand(nodeId)` on a missing node, a loading node, or a node
with non-empty `childrenIds` is a silent no-op: the guard returns before
any store write, no click transition (and hence no collaborator call)
exists, and no error is raised (the handler is a total function that
simply yields no new store). -/
theorem handleExpandStart_noop (s : Store) (nid : String)
    (h : lookup s nid = none
       ∨ (∃ n, lookup s nid = some n ∧ n.isLoading = some true)
       ∨ (∃ n l, lookup s nid = some n ∧ n.childrenIds = some l ∧ l ≠ [])) :
    handleExpandStart s nid = none
  ∧ ∀ (st st' : AppState), st.nodes = s → ¬ Step st (.clickExpand nid) st' := by
  have hstart : handleExpandStart s nid = none := by
    rcases h with h | ⟨n, hn, hl⟩ | ⟨n, l, hn, hc, hne⟩
    · simp [handleExpandStart, h]
    · simp [handleExpandStart, hn, jsTruthy, hl]
    · by_cases hl : jsTruthy n.isLoading
      · simp [handleExpandStart, hn, hl]
      · have : 0 < (n.childrenIds.getD []).length := by
          rw [hc]
          simpa using List.length_pos.mpr hne
        simp [handleExpandStart, hn, hl, this]
  refine ⟨hstart, ?_⟩
  intro st st' hs hstep
  cases hstep with
  | clickExpand st node ns hrender hlook hclick hstart2 =>
      rw [hs, hstart] at hstart2
      exact Option.noConfusion hstart2

/-- Witness for C6: expanding a node absent from the empty store is a
no-op. -/
theorem handleExpandStart_noop_witness :
    handleExpandStart [] "a" = none
  ∧ ∀ (st st' : AppState), st.nodes = [] → ¬ Step st (.clickExpand "a") st' :=
  handleExpandStart_noop [] "a" (Or.inl rfl)

/-- C2: when the collaborator fails during `expand(nodeId)` on an
expandable node, the failure continuation returns the store to exactly
its state before the call: the loading flag set by the accepted call
round-trips back to `false`, the node ends
`{isLoading := false, isExpanded := false, childrenIds := []}`, and no
record is created or changed. -/
theorem expand_failure_roundtrip (s : Store) (nid : String) (n : NodeData)
    (hlook : lookup s nid = some n)
    (hload : n.isLoading = some false)
    (hexp : n.isExpanded = some false)
    (hch : n.childrenIds = some []) :
    ∃ s₁, handleExpandStart s nid = some s₁
      ∧ expandFailUpdater nid s₁ = s
      ∧ lookup (expandFailUpdater nid s₁) nid = some n
      ∧ n.isLoading = some false ∧ n.isExpanded = some false
      ∧ n.childrenIds = some [] := by
  have hguard : handleExpandStart s nid =
      some (setEntry s nid { n with isLoading := some true }) := by
    simp [handleExpandStart, hlook, jsTruthy, hload, hch, jsGet]
  refine ⟨_, hguard, ?_, ?_, hload, hexp, hch⟩
  · have hget : jsGet (setEntry s nid { n with isLoading := some true }) nid =
        { n with isLoading := some true } := by
      simp [jsGet, lookup_setEntry_self]
    have hrec : ({ { n with isLoading := some true } with isLoading := some false }
        : NodeData) = n := by
      cases n with
      | mk id text parentId depth isExpanded isLoading childrenIds =>
          simp only at hload
          simp [hload]
    rw [expandFailUpdater, hget, hrec, setEntry_setEntry, setEntry_eq_of_lookup hlook]
  · have hget : jsGet (setEntry s nid { n with isLoading := some true }) nid =
        { n with isLoading := some true } := by
      simp [jsGet, lookup_setEntry_self]
    have hrec : ({ { n with isLoading := some true } with isLoading := some false }
        : NodeData) = n := by
      cases n with
      | mk id text parentId depth isExpanded isLoading childrenIds =>
          simp only at hload
          simp [hload]
    rw [expandFailUpdater, hget, hrec, setEntry_setEntry, setEntry_eq_of_lookup hlook]
    exact hlook

/-- Witness for C2: the round-trip on a concrete one-node store. -/
theorem expand_failure_roundtrip_witness :
    ∃ s₁, handleExpandStart demoExpandableStore "a" = some s₁
      ∧ expandFailUpdater "a" s₁ = demoExpandableStore
      ∧ lookup (expandFailUpdater "a" s₁) "a" = some demoExpandableNode
      ∧ demoExpandableNode.isLoading = some false
      ∧ demoExpandableNode.isExpanded = some false
      ∧ demoExpandableNode.childrenIds = some [] :=
  expand_failure_roundtrip demoExpandableStore "a" demoExpandableNode rfl rfl rfl rfl

/-- C5: committing an expansion on a loading node with empty children
creates exactly one node per generated text — each with
`parentId = nodeId`, `depth = node.depth + 1`, empty children, not
loading, not expanded — sets the parent to
`{isExpanded := true, isLoading := false, childrenIds := cids}` (the
fresh ids in input order), and adds no other record; with the empty
list the node ends `{isLoading := false, isExpanded := true,
childrenIds := []}`. -/
theorem expandCommit_spec (s : Store) (nid : String) (n : NodeData) (d : Nat)
    (ideas cids : List String)
    (hlook : lookup s nid = some n)
    (hload : n.isLoading = some true)
    (hch : n.childrenIds = some [])
    (hd : n.depth = some d)
    (hlen : cids.length = ideas.length)
    (hnd : cids.Nodup)
    (hne : ∀ c ∈ cids, c ≠ nid)
    (hfresh : ∀ c ∈ cids, c ∉ keys s) :
    lookup (expandCommitUpdater nid n ideas cids s) nid =
      some { n with isExpanded := some true, isLoading := some false,
                    childrenIds := some cids }
  ∧ (∀ p ∈ cids.zip ideas,
      lookup (expandCommitUpdater nid n ideas cids s) p.1 =
        some { id := some p.1, text := some p.2, parentId := some (some nid),
               depth := some (d + 1), isExpanded := some false,
               isLoading := some false, childrenIds := some [] })
  ∧ keys (expandCommitUpdater nid n ideas cids s) = keys s ++ cids := by
  have hmapfst : (cids.zip ideas).map (·.1) = cids :=
    List.map_fst_zip cids ideas (le_of_eq hlen)
  have hzipnd : ((cids.zip ideas).map (·.1)).Nodup := by rw [hmapfst]; exact hnd
  have hnin : nid ∉ (cids.zip ideas).map (·.1) := by
    rw [hmapfst]
    exact fun hmem => hne nid hmem rfl
  refine ⟨?_, ?_, ?_⟩
  · simp only [expandCommitUpdater]
    rw [lookup_foldl_setEntry_not_mem _ _ _ hnin, lookup_setEntry_self]
    simp [commitParentRecord, jsGet, hlook]
  · intro p hp
    simp only [expandCommitUpdater]
    rw [lookup_foldl_setEntry_mem _ _ _ hzipnd hp]
    simp [childNodeOf, hd]
  · simp only [expandCommitUpdater]
    rw [keys_foldl_setEntry _ _ _ hzipnd]
    · rw [keys_setEntry_of_mem _ (mem_keys_of_lookup hlook), hmapfst]
    · intro p hp
      rw [keys_setEntry_of_mem _ (mem_keys_of_lookup hlook)]
      exact hfresh p.1 (by rw [← hmapfst]; exact List.mem_map.mpr ⟨p, hp, rfl⟩)

/-- Witness for C5: committing two ideas on a concrete loading node. -/
theorem expandCommit_spec_witness :
    lookup (expandCommitUpdater "a" demoLoadingNode ["A", "B"] ["c1", "c2"]
        demoLoadingStore) "a" =
      some { demoLoadingNode with isExpanded := some true, isLoading := some false,
                                  childrenIds := some ["c1", "c2"] }
  ∧ (∀ p ∈ List.zip ["c1", "c2"] ["A", "B"],
      lookup (expandCommitUpdater "a" demoLoadingNode ["A", "B"] ["c1", "c2"]
          demoLoadingStore) p.1 =
        some { id := some p.1, text := some p.2, parentId := some (some "a"),
               depth := some (0 + 1), isExpanded := some false,
               isLoading := some false, childrenIds := some [] })
  ∧ keys (expandCommitUpdater "a" demoLoadingNode ["A", "B"] ["c1", "c2"]
        demoLoadingStore) = keys demoLoadingStore ++ ["c1", "c2"] :=
  expandCommit_spec demoLoadingStore "a" demoLoadingNode 0 ["A", "B"] ["c1", "c2"]
    rfl rfl rfl rfl rfl (by decide) (by decide) (by decide)

/-- C3: for a mapping that forms a valid tree rooted at a present
`rootId`, the positioned-node list contains exactly the nodes reachable
from `rootId` (no duplicates, no extras, none missing) and the edge list
contains exactly one entry per parent-child relationship among them. -/
theorem layout_complete (s : Store) (rootId : String)
    (hr : rootId ≠ "") (hv : validTree s rootId = true) :
    (((calculateTreeLayout s rootId).nodes.map (·.id)).Nodup
      ∧ ∀ i, i ∈ (calculateTreeLayout s rootId).nodes.map (·.id) ↔ Reaches s rootId i)
  ∧ ((calculateTreeLayout s rootId).links.Nodup
      ∧ ∀ p c, (p, c) ∈ (calculateTreeLayout s rootId).links ↔
          Reaches s rootId p ∧ childRel s p c) := by
  have hnd := validTree_nodup hv
  have hperm := validTree_perm hv
  have hrootmem : rootId ∈ keys s := by
    rcases validTree_root hv with ⟨r, hlook, _⟩
    exact mem_keys_of_lookup hlook
  have hids : (calculateTreeLayout s rootId).nodes.map (·.id) =
      subtreeIds s s.length rootId := by
    simp only [calculateTreeLayout, if_neg hr, hv, if_true, List.map_map]
    exact map_fst_subtreeDepths s s.length rootId 0
  have hlinks : (calculateTreeLayout s rootId).links =
      (subtreeIds s s.length rootId).flatMap
        (fun i => (childrenIdsOf s i).map (fun c => (i, c))) := by
    simp only [calculateTreeLayout, if_neg hr, hv, if_true, layoutLinks]
  have hsubnd : (subtreeIds s s.length rootId).Nodup := hperm.nodup_iff.mpr hnd
  have hmemsub : ∀ i, i ∈ subtreeIds s s.length rootId ↔ Reaches s rootId i := by
    intro i
    constructor
    · exact reaches_of_mem_subtreeIds hnd s.length rootId i
    · intro h
      exact hperm.mem_iff.mpr (mem_keys_of_reaches hrootmem h)
  refine ⟨⟨?_, ?_⟩, ?_, ?_⟩
  · rw [hids]
    exact hsubnd
  · intro i
    rw [hids]
    exact hmemsub i
  · rw [hlinks]
    refine List.nodup_flatMap.mpr ⟨?_, ?_⟩
    · intro i _
      exact (nodup_childrenIdsOf hnd).map (fun a b h => congrArg Prod.snd h)
    · refine List.Pairwise.imp ?_ hsubnd
      intro i j hij x hx hy
      rcases List.mem_map.mp hx with ⟨c1, _, rfl⟩
      rcases List.mem_map.mp hy with ⟨c2, _, heq⟩
      exact hij (congrArg Prod.fst heq).symm
  · intro p c
    rw [hlinks]
    simp only [List.mem_flatMap, List.mem_map]
    constructor
    · rintro ⟨i, hi, c2, hc2, heq⟩
      have hip : i = p := congrArg Prod.fst heq
      have hcc : c2 = c := congrArg Prod.snd heq
      rw [← hip, ← hcc]
      exact ⟨(hmemsub i).mp hi, childRel_of_mem_childrenIdsOf hnd hc2⟩
    · rintro ⟨hre, hcr⟩
      exact ⟨p, (hmemsub p).mpr hre, c, mem_childrenIdsOf_of_childRel hcr, rfl⟩

/-- Witness for C3: the three-node demo tree. -/
theorem layout_complete_witness :
    ("r" ≠ "" ∧ validTree demoTreeStore "r" = true)
  ∧ ((((calculateTreeLayout demoTreeStore "r").nodes.map (·.id)).Nodup
      ∧ ∀ i, i ∈ (calculateTreeLayout demoTreeStore "r").nodes.map (·.id) ↔
          Reaches demoTreeStore "r" i)
    ∧ ((calculateTreeLayout demoTreeStore "r").links.Nodup
      ∧ ∀ p c, (p, c) ∈ (calculateTreeLayout demoTreeStore "r").links ↔
          Reaches demoTreeStore "r" p ∧ childRel demoTreeStore p c)) :=
  ⟨⟨by decide, by decide⟩, layout_complete demoTreeStore "r" (by decide) (by decide)⟩

/-- C7: every node of the computed layout sits at
`(r·cos(θ−π/2), r·sin(θ−π/2))` with `r = depth * RADIUS_STEP` and `θ` its
assigned angle; in particular the root (hierarchy depth 0) is always at
`(0, 0)` whatever the tree shape. -/
theorem layout_positions (s : Store) (rootId : String) :
    (∀ pn ∈ (calculateTreeLayout s rootId).nodes,
        pn.x = ((pn.depth : ℝ) * (RADIUS_STEP : ℝ)) *
            Real.cos (assignedAngle s rootId pn.id - Real.pi / 2)
      ∧ pn.y = ((pn.depth : ℝ) * (RADIUS_STEP : ℝ)) *
            Real.sin (assignedAngle s rootId pn.id - Real.pi / 2))
  ∧ (∀ pn ∈ (calculateTreeLayout s rootId).nodes, pn.id = rootId →
        pn.x = 0 ∧ pn.y = 0) := by
  by_cases hr : rootId = ""
  · constructor <;> intro pn hpn <;> simp [calculateTreeLayout, hr] at hpn
  · by_cases hv : validTree s rootId = true
    · have hnodes : (calculateTreeLayout s rootId).nodes =
          (subtreeDepths s s.length rootId 0).map (positionedNode s rootId) := by
        simp only [calculateTreeLayout, if_neg hr, hv, if_true]
      constructor
      · intro pn hpn
        rw [hnodes] at hpn
        rcases List.mem_map.mp hpn with ⟨pd, _, rfl⟩
        exact ⟨rfl, rfl⟩
      · intro pn hpn hid
        rw [hnodes] at hpn
        rcases List.mem_map.mp hpn with ⟨pd, hpd, rfl⟩
        have hd0 : pd.2 = 0 := subtreeDepths_root_depth hv pd hpd hid
        constructor
        · show ((pd.2 : ℝ) * (RADIUS_STEP : ℝ)) * _ = 0
          rw [hd0]
          simp
        · show ((pd.2 : ℝ) * (RADIUS_STEP : ℝ)) * _ = 0
          rw [hd0]
          simp
    · constructor <;> intro pn hpn <;> simp [calculateTreeLayout, hr, hv] at hpn

/-- Witness for C7: in the demo tree the root's computed position is
the origin. -/
theorem layout_positions_witness :
    ∃ pn, pn ∈ (calculateTreeLayout demoTreeStore "r").nodes ∧ pn.id = "r"
      ∧ pn.x = 0 ∧ pn.y = 0 := by
  have hnodes : (calculateTreeLayout demoTreeStore "r").nodes =
      (subtreeDepths demoTreeStore demoTreeStore.length "r" 0).map
        (positionedNode demoTreeStore "r") := by
    have hv : validTree demoTreeStore "r" = true := by decide
    simp only [calculateTreeLayout, hv, if_true]
    rfl
  have hmem : positionedNode demoTreeStore "r" ("r", 0) ∈
      (calculateTreeLayout demoTreeStore "r").nodes := by
    rw [hnodes]
    exact List.mem_map.mpr ⟨("r", 0), by decide, rfl⟩
  exact ⟨positionedNode demoTreeStore "r" ("r", 0), hmem, rfl,
    (layout_positions demoTreeStore "r").2 _ hmem rfl⟩

/-- C1: at most one outstanding expansion request per node.  After an
accepted `expand(nodeId)` call, exactly one in-flight request targets
that node, and a second call made before it resolves is rejected by the
guard (no second collaborator call, no second set of children). -/
theorem expand_single_flight {st st' : AppState} {nid : String}
    (hreach : Reachable st) (hstep : Step st (Action.clickExpand nid) st') :
    (st'.pending.filter (fun req => req.reqId = nid)).length = 1
  ∧ handleExpandStart st'.nodes nid = none := by
  have hok := pendingOk_reachable hreach
  cases hstep with
  | clickExpand st2 node ns hrender hlook hclick hstart =>
      obtain ⟨node2, hlook2, hnl, hcl, hns⟩ := handleExpandStart_eq_some hstart
      have hnodeeq : node2 = node := Option.some_injective _ (hlook2.symm.trans hlook)
      subst hnodeeq
      subst hns
      have hnone := no_pending_target hok hlook hnl
      have hfilter0 : st.pending.filter (fun req => req.reqId = nid) = [] := by
        rw [List.filter_eq_nil_iff]
        intro req hreq
        simpa using hnone req hreq
      constructor
      · rw [List.filter_append, hfilter0]
        simp [PendingReq.reqId]
      · simp [handleExpandStart, lookup_setEntry_self, jsTruthy]

/-- Witness for C1: the accepted click of the demo run leaves exactly
one in-flight request for the node and blocks a second call. -/
theorem expand_single_flight_witness :
    (demoS3.pending.filter (fun req => req.reqId = "node-1")).length = 1
  ∧ handleExpandStart demoS3.nodes "node-1" = none :=
  expand_single_flight reach_demoS2 step_demoS2_demoS3

/-- C10: in every state reachable through the user interface, every
node record with a defined depth is at depth at most `MAX_DEPTH = 5`:
the click gate refuses to expand a node at depth 5, so no node is ever
created beyond depth 5. -/
theorem reachable_depth_le {st : AppState} (h : Reachable st) :
    ∀ kv ∈ st.nodes, ∀ d, kv.2.depth = some d → d ≤ MAX_DEPTH :=
  (depthBounded_reachable h).1

/-- Witness for C10: the bound holds in the two-node demo state. -/
theorem reachable_depth_le_witness :
    Reachable demoS2
  ∧ ∀ kv ∈ demoS2.nodes, ∀ d, kv.2.depth = some d → d ≤ MAX_DEPTH :=
  ⟨reach_demoS2, reachable_depth_le reach_demoS2⟩

/-- C4: the claim is FALSE of the code.  The commit continuation of
`handleExpandNode` performs no existence check: in the reachable state
`demoS4` (reset fired while the expansion of the already-deleted node
was in flight) the store is empty, yet when the response arrives the
continuation spreads `undefined` and writes two records — a parent
record with no id, text, parentId or depth, plus a child — instead of
leaving the store unchanged. -/
theorem staleCommit_mutates_store :
    Reachable demoS4
  ∧ demoS4.nodes = []
  ∧ Step demoS4 (Action.resolveExpand "node-1" ["X"] ["ghost-1"]) demoS5
  ∧ demoS5.nodes ≠ []
  ∧ lookup demoS5.nodes "node-1" =
      some { isExpanded := some true, isLoading := some false,
             childrenIds := some ["ghost-1"] } :=
  ⟨reach_demoS4, rfl, step_demoS4_demoS5, by decide, by decide⟩

/-- C8: the claim is FALSE of the code.  The state `demoS5` is reachable
through the operations (root creation, expansion commit, expansion
failure, reset), its store is non-empty, yet no record has
`parentId = null` (zero roots), and the record "ghost-1" has
`parentId = "node-1"` and depth 2 while its parent record has no depth
at all — so neither the exactly-one-root clause nor the
depth-equals-parent-plus-one clause holds in every reachable state. -/
theorem rootInvariant_violated_reachable :
    Reachable demoS5
  ∧ demoS5.nodes ≠ []
  ∧ (∀ kv ∈ demoS5.nodes, kv.2.parentId ≠ some none)
  ∧ (lookup demoS5.nodes "node-1").map NodeData.depth = some none
  ∧ (lookup demoS5.nodes "ghost-1").map NodeData.parentId = some (some (some "node-1"))
  ∧ (lookup demoS5.nodes "ghost-1").map NodeData.depth = some (some 2) :=
  ⟨reach_demoS5, by decide, by decide, by decide, by decide, by decide⟩

end MindStorm
